import Mathlib

/-!
Verification of the knowledge-base subsystem of the AI-Voice-Agent backend
(`Backend/app/services/knowledge_base.py`), as a shallow embedding in Lean 4.

Strings are modelled as `List Char` (Python `str`); floats are modelled as
exact rationals `ℚ`; NumPy/FAISS vectors are `List ℚ`; Python exceptions are
modelled with `Except`.
-/

/-- A Python string, modelled as its list of characters. -/
abbrev PyStr := List Char

/-- An embedding vector (`numpy.ndarray` of floats), modelled exactly over `ℚ`. -/
abbrev Vec := List ℚ

/-- Characters that Python `str.strip()` removes (ASCII whitespace). -/
def isSpaceChar (c : Char) : Bool :=
  c == ' ' || c == '\t' || c == '\n' || c == '\r' || c == '\x0b' || c == '\x0c'

/-- Python `s.strip()`: remove leading and trailing whitespace. -/
def stripChars (s : PyStr) : PyStr :=
  ((s.dropWhile isSpaceChar).reverse.dropWhile isSpaceChar).reverse

/-- Python `" ".join(parts)`. -/
def joinSp : List PyStr → PyStr
  | [] => []
  | [s] => s
  | s :: rest => s ++ ' ' :: joinSp rest

/-- `sum(len(s) for s in parts)` — the recomputation of `current_len` performed
at `knowledge_base.py:88` after an overlap reseed (note: no `+1` per sentence). -/
def sumLen (parts : List PyStr) : ℕ :=
  (parts.map List.length).sum

/-- Cumulative length counting one joining space per sentence,
`Σ (len s + 1)` — the accounting used by `_build_overlap` and by the packing
condition of `_pack_sentences`. -/
def sumLen1 (parts : List PyStr) : ℕ :=
  (parts.map (fun s => s.length + 1)).sum

/-- The backward walk of `SemanticTextSplitter._build_overlap`
(`knowledge_base.py:98-106`), expressed on the reversed sentence list:
take sentences while `total + len(sent) + 1 <= chunk_overlap`. -/
def overlapRev (overlap : ℕ) : ℕ → List PyStr → List PyStr
  | _, [] => []
  | total, s :: rest =>
    if overlap < total + s.length + 1 then []
    else s :: overlapRev overlap (total + s.length + 1) rest

/-- `SemanticTextSplitter._build_overlap(parts)`: the seed sentences that open
the next chunk, in their original order. -/
def buildOverlap (overlap : ℕ) (parts : List PyStr) : List PyStr :=
  (overlapRev overlap 0 parts.reverse).reverse

/-- `SemanticTextSplitter._hard_split(text)` (`knowledge_base.py:108-112`):
`[text[i : i+chunk_size] for i in range(0, len(text), chunk_size - chunk_overlap)]`.
`range(0, n, step)` with `step > 0` has `⌈n / step⌉` elements. -/
def hardSplit (size overlap : ℕ) (t : PyStr) : List PyStr :=
  (List.range ((t.length + (size - overlap) - 1) / (size - overlap))).map
    (fun k => (t.drop (k * (size - overlap))).take size)

/-- The `for sent in sentences` loop of `SemanticTextSplitter._pack_sentences`
(`knowledge_base.py:69-94`), including the final flush of `current_parts`.
State: `parts` is `current_parts`, `curLen` is `current_len`. -/
def packLoop (size overlap : ℕ) : List PyStr → ℕ → List PyStr → List PyStr
  | parts, _, [] => if parts.isEmpty then [] else [joinSp parts]
  | parts, curLen, s :: ss =>
    if size < s.length then
      (if parts.isEmpty then [] else [joinSp parts]) ++ hardSplit size overlap s
        ++ packLoop size overlap [] 0 ss
    else if size < curLen + s.length + 1 ∧ ¬ parts.isEmpty then
      joinSp parts :: packLoop size overlap (buildOverlap overlap parts ++ [s])
        (sumLen (buildOverlap overlap parts) + s.length + 1) ss
    else
      packLoop size overlap (parts ++ [s]) (curLen + s.length + 1) ss

/-- `SemanticTextSplitter._pack_sentences(sentences)`: run the packing loop from
the empty state, then `[c.strip() for c in chunks if c.strip()]`. -/
def packSentences (size overlap : ℕ) (sentences : List PyStr) : List PyStr :=
  ((packLoop size overlap [] 0 sentences).map stripChars).filter (fun c => ¬ c.isEmpty)

/-- The overlap-seed selection as the spec sentence for claim C5 words it:
walk backward accumulating whole sentences while their cumulative length
(plain character count `Σ len s`) stays at most `chunk_overlap`.  This is the
claim-side reading, to be compared against the source's `buildOverlap`. -/
def claimOverlapRev (overlap : ℕ) : ℕ → List PyStr → List PyStr
  | _, [] => []
  | total, s :: rest =>
    if overlap < total + s.length then []
    else s :: claimOverlapRev overlap (total + s.length) rest

/-- The claim-side overlap seed (maximal trailing run of whole sentences whose
plain cumulative character count stays `≤ chunk_overlap`), in original order. -/
def claimOverlap (overlap : ℕ) (parts : List PyStr) : List PyStr :=
  (claimOverlapRev overlap 0 parts.reverse).reverse

/-! ## Vectors and MMR selection (`KnowledgeBaseService._mmr_select`) -/

/-- Inner product of two vectors (`sel_vecs @ cand_vec` rows); on the
L2-normalised vectors stored by the service this equals cosine similarity. -/
def dotQ (a b : Vec) : ℚ :=
  (List.zipWith (· * ·) a b).sum

/-- `np.max` over a list of floats (`0` on the empty list, which the service
never passes to it). -/
def maxQ : List ℚ → ℚ
  | [] => 0
  | x :: xs => xs.foldl max x

/-- Left fold keeping the current best, replacing it only on a strictly greater
key — the behaviour of both Python `max(..., key=...)` and the manual
`if mmr > best_score` loop in `_mmr_select`. -/
def foldMax (f : α → ℚ) (x : α) (xs : List α) : α :=
  xs.foldl (fun b y => if f b < f y then y else b) x

/-- `sim_to_selected`: `float(np.max(sel_vecs @ cand_vec))`
(`knowledge_base.py:289`). -/
def simToSelected (vec : α → Vec) (selected : List (α × ℚ)) (c : α) : ℚ :=
  maxQ (selected.map (fun s => dotQ (vec s.1) (vec c)))

/-- `mmr = self.MMR_LAMBDA * rel - (1 - self.MMR_LAMBDA) * sim_to_selected`
with `MMR_LAMBDA = 0.7` (`knowledge_base.py:290`). -/
def mmrScore (vec : α → Vec) (selected : List (α × ℚ)) (c : α × ℚ) : ℚ :=
  (7 : ℚ)/10 * c.2 - (1 - (7 : ℚ)/10) * simToSelected vec selected c.1

/-- One iteration of the inner `for idx, rel in remaining` loop of
`_mmr_select` (`knowledge_base.py:287-293`): update `(best_score, best)` when
`mmr > best_score`, where `best_score = -inf` is modelled as `none`. -/
def pickStep (vec : α → Vec) (selected : List (α × ℚ)) (acc : Option ℚ × (α × ℚ))
    (c : α × ℚ) : Option ℚ × (α × ℚ) :=
  match acc.1 with
  | none => (some (mmrScore vec selected c), c)
  | some b =>
    if b < mmrScore vec selected c then (some (mmrScore vec selected c), c) else acc

/-- The inner loop of `_mmr_select` (`knowledge_base.py:285-293`):
`best_score` starts at `-inf` (`none`) and `best` starts at `remaining[0]`;
the loop runs over all of `remaining = x :: xs`. -/
def pickBestCore (vec : α → Vec) (selected : List (α × ℚ)) (x : α × ℚ)
    (xs : List (α × ℚ)) : α × ℚ :=
  (List.foldl (pickStep vec selected) ((none : Option ℚ), x) (x :: xs)).2

/-- The `while remaining and len(selected) < k` loop of `_mmr_select`
(`knowledge_base.py:280-296`).  `fuel` bounds the number of iterations; every
iteration removes an element of `remaining`, so `remaining.length` fuel is
enough.  `list.remove(best)` removes the first occurrence (`List.erase`). -/
def mmrGo [DecidableEq α] (vec : α → Vec) (k : ℕ) :
    ℕ → List (α × ℚ) → List (α × ℚ) → List (α × ℚ)
  | 0, selected, _ => selected
  | _ + 1, selected, [] => selected
  | fuel + 1, selected, r :: rs =>
    if k ≤ selected.length then selected
    else
      let best := if selected.isEmpty then foldMax (fun c => c.2) r rs
                  else pickBestCore vec selected r rs
      mmrGo vec k fuel (selected ++ [best]) ((r :: rs).erase best)

/-- `KnowledgeBaseService._mmr_select(query_vec, candidates, k)`; the stored
vector of candidate `i` is `vec i` (`self._get_vector(i)`). -/
def mmrSelect [DecidableEq α] (vec : α → Vec) (candidates : List (α × ℚ)) (k : ℕ) :
    List (α × ℚ) :=
  mmrGo vec k candidates.length [] candidates

/-! ## Spec-side MMR (claim C1's wording, §4.4 step 6 of the spec) -/

/-- The first-encountered element attaining the maximal score: "ties broken by
first-encountered order". -/
def argmaxFirst (score : α → ℚ) (l : List α) : Option α :=
  l.find? (fun x => l.all (fun y => decide (score y ≤ score x)))

/-- The claim's marginal-relevance formula:
`0.7 * rel(c) - 0.3 * (max over already-selected s of cos(vector(c), vector(s)))`. -/
def mmrSpecScore (vec : α → Vec) (selected : List (α × ℚ)) (c : α × ℚ) : ℚ :=
  (7 : ℚ)/10 * c.2 - (3 : ℚ)/10 * maxQ (selected.map (fun s => dotQ (vec c.1) (vec s.1)))

/-- Claim C1's selection loop: first pick the remaining candidate with the
highest relevance, then repeatedly the remaining candidate maximizing the MMR
formula, first-encountered ties, until `k` picked or none remain. -/
def mmrSpecGo [DecidableEq α] (vec : α → Vec) (k : ℕ) :
    ℕ → List (α × ℚ) → List (α × ℚ) → List (α × ℚ)
  | 0, selected, _ => selected
  | _ + 1, selected, [] => selected
  | fuel + 1, selected, r :: rs =>
    if k ≤ selected.length then selected
    else
      let pick := if selected.isEmpty then argmaxFirst (fun c => c.2) (r :: rs)
                  else argmaxFirst (mmrSpecScore vec selected) (r :: rs)
      match pick with
      | none => selected
      | some best => mmrSpecGo vec k fuel (selected ++ [best]) ((r :: rs).erase best)

/-- Claim C1's description of MMR selection, as a function. -/
def mmrSpecSelect [DecidableEq α] (vec : α → Vec) (candidates : List (α × ℚ))
    (k : ℕ) : List (α × ℚ) :=
  mmrSpecGo vec k candidates.length [] candidates

/-! ## Knowledge-base state and lifecycle (`KnowledgeBaseService`) -/

/-- One record of `self.metadata` (`knowledge_base.py:205-212`). -/
structure MetaEntry where
  docId : String
  filename : String
  chunkIndex : ℕ
  text : PyStr
  createdAt : String
deriving DecidableEq

instance : Inhabited MetaEntry := ⟨⟨"", "", 0, [], ""⟩⟩

/-- The FAISS index (`self.index`, position-addressed vectors) paired with the
metadata ledger (`self.metadata`). -/
structure KBState where
  index : List Vec
  metadata : List MetaEntry
deriving DecidableEq

/-- The state right after construction: empty `IndexFlatIP`, empty ledger. -/
def emptyKB : KBState := ⟨[], []⟩

/-- `self._get_vector(idx)`: exact reconstruction of the stored vector at a
position (in-range positions only ever reach it in the source). -/
def getVector (st : KBState) (i : ℕ) : Vec :=
  st.index.getD i []

/-- `ingest_document` after extraction and chunking succeed
(`knowledge_base.py:202-212`): append one embedding and one metadata record per
chunk, in chunk order. -/
def ingestKB (embed : PyStr → Vec) (docId filename createdAt : String)
    (chunks : List PyStr) (st : KBState) : KBState :=
  { index := st.index ++ chunks.map embed,
    metadata := st.metadata ++ chunks.enum.map
      (fun p => ⟨docId, filename, p.1, p.2, createdAt⟩) }

/-- `keep = [i for i, m in enumerate(self.metadata) if m["doc_id"] != doc_id]`
(`knowledge_base.py:318`). -/
def keepIndices (docId : String) (metadata : List MetaEntry) : List ℕ :=
  (metadata.enum.filter (fun p => decide (p.2.docId ≠ docId))).map Prod.fst

/-- Failure of `delete_document`. -/
inductive KBErr
  | notFound
deriving DecidableEq

/-- `delete_document(doc_id)` (`knowledge_base.py:316-335`): raise when no
entry matched, otherwise rebuild both structures from the kept positions in
original order. -/
def deleteKB (docId : String) (st : KBState) : Except KBErr KBState :=
  let keep := keepIndices docId st.metadata
  if keep.length = st.metadata.length then .error .notFound
  else .ok
    { index := keep.map (fun i => getVector st i),
      metadata := keep.map (fun i => st.metadata.getD i default) }

/-- A mutating operation on the knowledge base.  `ingest` carries the data the
external collaborators provide (extracted chunks, generated `doc_id`,
timestamp); a failed ingest or delete leaves the state unchanged, so sequences
of successful operations are the general case. -/
inductive KBOp
  | ingest (docId filename createdAt : String) (chunks : List PyStr)
  | delete (docId : String)
  | clear

/-- Apply one operation; `delete` leaves the state unchanged when it raises
`NotFound` (the exception propagates, the structures were not yet touched). -/
def applyOp (embed : PyStr → Vec) (op : KBOp) (st : KBState) : KBState :=
  match op with
  | .ingest d f c chunks => ingestKB embed d f c chunks st
  | .delete d =>
    match deleteKB d st with
    | .ok st2 => st2
    | .error _ => st
  | .clear => emptyKB

/-- Apply a finite sequence of operations in order. -/
def applyOps (embed : PyStr → Vec) (ops : List KBOp) (st : KBState) : KBState :=
  ops.foldl (fun s op => applyOp embed op s) st

/-! ## Retrieval (`KnowledgeBaseService.retrieve`, `knowledge_base.py:224-268`) -/

/-- The result dictionary `{"chunks": ..., "sources": ..., "scores": ...}`. -/
structure RetrieveOut where
  chunks : List PyStr
  sources : List String
  scores : List ℚ
deriving DecidableEq

/-- The empty result returned for an empty ledger and by the catch-all
`except` clause. -/
def emptyOut : RetrieveOut := ⟨[], [], []⟩

/-- Exceptions that can be raised inside the `try` block of `retrieve`. -/
inductive PyErr
  | embedFail
  | indexError
deriving DecidableEq

/-- Python list indexing `metadata[i]` on a signed index: negative indices wrap
from the end, out-of-range indices raise `IndexError`. -/
def pyGetMeta (metadata : List MetaEntry) (i : ℤ) : Except PyErr MetaEntry :=
  if 0 ≤ i ∧ i < (metadata.length : ℤ) then
    .ok (metadata.getD i.toNat default)
  else if -(metadata.length : ℤ) ≤ i ∧ i < 0 then
    .ok (metadata.getD ((metadata.length : ℤ) + i).toNat default)
  else .error .indexError

/-- The `for idx, score in selected` output loop (`knowledge_base.py:257-261`):
look up each selected position in the ledger, stopping at the first failure. -/
def lookupMetas (metadata : List MetaEntry) :
    List (ℤ × ℚ) → Except PyErr (List MetaEntry)
  | [] => .ok []
  | p :: ps =>
    match pyGetMeta metadata p.1 with
    | .error e => .error e
    | .ok m =>
      match lookupMetas metadata ps with
      | .error e => .error e
      | .ok ms => .ok (m :: ms)

/-- `f"{meta['filename']} (chunk {meta['chunk_index']})"`. -/
def sourceLabel (m : MetaEntry) : String :=
  m.filename ++ " (chunk " ++ Nat.repr m.chunkIndex ++ ")"

/-- Round-half-to-even to an integer, the tie behaviour of Python `round`. -/
def roundHalfEven (x : ℚ) : ℤ :=
  if x - (⌊x⌋ : ℚ) < 1/2 then ⌊x⌋
  else if (1 : ℚ)/2 < x - (⌊x⌋ : ℚ) then ⌊x⌋ + 1
  else if 2 ∣ ⌊x⌋ then ⌊x⌋ else ⌊x⌋ + 1

/-- Python `round(score, 4)`, idealised over exact rationals. -/
def pyRound4 (x : ℚ) : ℚ :=
  (roundHalfEven (x * 10000) : ℚ) / 10000

/-- The body of the `try` block of `retrieve` (`knowledge_base.py:232-264`).
External calls are passed in: `vec i` is `self._get_vector(i)`, `embedQ` the
(fallible) embedding of the query, `searchRes` the `(index, score)` rows that
`self.index.search` returned for `fetch_k`.  FAISS indices are signed
(`-1` pads missing results), hence `ℤ`. -/
def retrieveBody (metadata : List MetaEntry) (vec : ℤ → Vec)
    (embedQ : Except PyErr Vec) (searchRes : List (ℤ × ℚ)) (topK : ℕ) :
    Except PyErr RetrieveOut :=
  if metadata.isEmpty then .ok emptyOut
  else
    match embedQ with
    | .error e => .error e
    | .ok _ =>
      let cands0 := searchRes.filter
        (fun p => decide (p.1 < (metadata.length : ℤ)) && decide ((3 : ℚ)/10 ≤ p.2))
      let cands := if cands0.isEmpty then
          (searchRes.take topK).filter (fun p => decide (p.1 < (metadata.length : ℤ)))
        else cands0
      let selected := mmrSelect vec cands topK
      match lookupMetas metadata selected with
      | .error e => .error e
      | .ok ms =>
        .ok ⟨ms.map (fun m => m.text), ms.map sourceLabel,
             selected.map (fun p => pyRound4 p.2)⟩

/-- `retrieve` with its catch-all `except Exception` clause
(`knowledge_base.py:266-268`): any exception becomes the empty result. -/
def retrieveModel (metadata : List MetaEntry) (vec : ℤ → Vec)
    (embedQ : Except PyErr Vec) (searchRes : List (ℤ × ℚ)) (topK : ℕ) :
    RetrieveOut :=
  match retrieveBody metadata vec embedQ searchRes topK with
  | .ok r => r
  | .error _ => emptyOut

/-! ## Persistence load (`KnowledgeBaseService._load_index`, lines 145-155) -/

/-- The condition of one persisted file: absent, unreadable (read raises), or
readable with the given content. -/
inductive LoadFile (α : Type)
  | missing
  | corrupt
  | good (content : α)

/-- `_load_index`: starting from the empty state set up by `__init__`, load the
index file if present, then the metadata file if present, inside one `try`; an
exception anywhere abandons the rest of the block, keeping whatever was already
assigned. -/
def loadIndex (idxFile : LoadFile (List Vec)) (metaFile : LoadFile (List MetaEntry)) :
    KBState :=
  match idxFile with
  | .corrupt => ⟨[], []⟩
  | .missing =>
    match metaFile with
    | .corrupt => ⟨[], []⟩
    | .missing => ⟨[], []⟩
    | .good m => ⟨[], m⟩
  | .good v =>
    match metaFile with
    | .corrupt => ⟨v, []⟩
    | .missing => ⟨v, []⟩
    | .good m => ⟨v, m⟩

/-! ## Lemmas: first-encountered maxima (claim C1) -/

theorem find?_congr (p q : α → Bool) :
    ∀ (l : List α), (∀ a ∈ l, p a = q a) → l.find? p = l.find? q := by
  intro l
  induction l with
  | nil => intro _; rfl
  | cons a as ih =>
    intro h
    have ha := h a (List.mem_cons_self _ _)
    cases hpa : p a with
    | true =>
      rw [List.find?_cons_of_pos _ hpa, List.find?_cons_of_pos _ (by rw [← ha]; exact hpa)]
    | false =>
      rw [List.find?_cons_of_neg _ (by simp [hpa]),
        List.find?_cons_of_neg _ (by simp [← ha, hpa]),
        ih (fun b hb => h b (List.mem_cons_of_mem _ hb))]

theorem find?_append_first (p : α → Bool) (m : α) :
    ∀ (pre post : List α), (∀ w ∈ pre, p w = false) → p m = true →
    (pre ++ m :: post).find? p = some m := by
  intro pre
  induction pre with
  | nil =>
    intro post _ hm
    simp [List.find?, hm]
  | cons a as ih =>
    intro post hpre hm
    have ha : p a = false := hpre a (List.mem_cons_self _ _)
    simp [List.find?, ha, ih post (fun w hw => hpre w (List.mem_cons_of_mem _ hw)) hm]

theorem foldMax_decomp (f : α → ℚ) :
    ∀ (xs : List α) (x : α),
    ∃ pre post, x :: xs = pre ++ foldMax f x xs :: post ∧
      (∀ w ∈ pre, f w < f (foldMax f x xs)) ∧
      (∀ w ∈ x :: xs, f w ≤ f (foldMax f x xs)) := by
  intro xs
  induction xs with
  | nil =>
    intro x
    refine ⟨[], [], rfl, by simp, ?_⟩
    intro w hw
    have : w = x := by simpa using hw
    rw [this]
    exact le_refl _
  | cons y ys ih =>
    intro x
    have hunf : foldMax f x (y :: ys) = foldMax f (if f x < f y then y else x) ys := by
      unfold foldMax
      simp only [List.foldl_cons]
    by_cases h : f x < f y
    · obtain ⟨pre, post, hdec, hlt, hle⟩ := ih y
      rw [hunf, if_pos h] at *
      have hyle : f y ≤ f (foldMax f y ys) := hle y (List.mem_cons_self _ _)
      refine ⟨x :: pre, post, ?_, ?_, ?_⟩
      · rw [List.cons_append, ← hdec]
      · intro w hw
        rcases List.mem_cons.mp hw with h2 | h2
        · rw [h2]
          exact lt_of_lt_of_le h hyle
        · exact hlt w h2
      · intro w hw
        rcases List.mem_cons.mp hw with h2 | h2
        · rw [h2]
          exact le_of_lt (lt_of_lt_of_le h hyle)
        · exact hle w h2
    · have hyx : f y ≤ f x := not_lt.mp h
      obtain ⟨pre, post, hdec, hlt, hle⟩ := ih x
      have hgoal : foldMax f x (y :: ys) = foldMax f x ys := by
        rw [hunf, if_neg h]
      rw [hgoal]
      have hxle : f x ≤ f (foldMax f x ys) := hle x (List.mem_cons_self _ _)
      cases pre with
      | nil =>
        have hm : foldMax f x ys = x := by
          simp only [List.nil_append] at hdec
          exact ((List.cons.injEq _ _ _ _ ▸ hdec).1).symm
        refine ⟨[], y :: ys, ?_, by simp, ?_⟩
        · rw [List.nil_append, hm]
        · intro w hw
          rcases List.mem_cons.mp hw with h2 | h2
          · rw [h2]
            exact hxle
          · rcases List.mem_cons.mp h2 with h3 | h3
            · rw [h3, hm]
              exact hyx
            · exact hle w (List.mem_cons_of_mem _ h3)
      | cons a pre2 =>
        have ha : a = x := by
          simp only [List.cons_append] at hdec
          exact ((List.cons.injEq _ _ _ _ ▸ hdec).1).symm
        have hys : ys = pre2 ++ foldMax f x ys :: post := by
          simp only [List.cons_append] at hdec
          exact (List.cons.injEq _ _ _ _ ▸ hdec).2
        have hxlt : f x < f (foldMax f x ys) := by
          have h5 := hlt a (List.mem_cons_self _ _)
          rwa [ha] at h5
        refine ⟨x :: y :: pre2, post, ?_, ?_, ?_⟩
        · simp only [List.cons_append]
          rw [← hys]
        · intro w hw
          rcases List.mem_cons.mp hw with h2 | h2
          · rw [h2]
            exact hxlt
          · rcases List.mem_cons.mp h2 with h3 | h3
            · rw [h3]
              exact lt_of_le_of_lt hyx hxlt
            · exact hlt w (List.mem_cons_of_mem _ h3)
        · intro w hw
          rcases List.mem_cons.mp hw with h2 | h2
          · rw [h2]
            exact hxle
          · rcases List.mem_cons.mp h2 with h3 | h3
            · rw [h3]
              exact le_trans hyx hxle
            · exact hle w (List.mem_cons_of_mem _ h3)

theorem argmaxFirst_eq_foldMax (f : α → ℚ) (xs : List α) (x : α) :
    argmaxFirst f (x :: xs) = some (foldMax f x xs) := by
  obtain ⟨pre, post, hdec, hlt, hle⟩ := foldMax_decomp f xs x
  unfold argmaxFirst
  rw [hdec]
  apply find?_append_first
  · intro w hw
    cases hc : (pre ++ foldMax f x xs :: post).all (fun v => decide (f v ≤ f w)) with
    | false => rfl
    | true =>
      exfalso
      have hmem : foldMax f x xs ∈ pre ++ foldMax f x xs :: post := by
        simp
      have h2 := List.all_eq_true.mp hc (foldMax f x xs) hmem
      simp only [decide_eq_true_eq] at h2
      exact absurd h2 (not_le.mpr (hlt w hw))
  · rw [List.all_eq_true]
    intro v hv
    rw [← hdec] at hv
    simpa using hle v hv

theorem foldl_pickStep (vec : α → Vec) (sel : List (α × ℚ)) :
    ∀ (l : List (α × ℚ)) (y : α × ℚ),
    (List.foldl (pickStep vec sel) (some (mmrScore vec sel y), y) l).2
      = foldMax (mmrScore vec sel) y l := by
  intro l
  induction l with
  | nil => intro y; rfl
  | cons c cs ih =>
    intro y
    unfold foldMax
    simp only [List.foldl_cons]
    by_cases h : mmrScore vec sel y < mmrScore vec sel c
    · have hstep : pickStep vec sel (some (mmrScore vec sel y), y) c
          = (some (mmrScore vec sel c), c) := by
        simp [pickStep, h]
      rw [hstep, if_pos h]
      exact ih c
    · have hstep : pickStep vec sel (some (mmrScore vec sel y), y) c
          = (some (mmrScore vec sel y), y) := by
        simp [pickStep, h]
      rw [hstep, if_neg h]
      exact ih y

theorem pickBestCore_eq (vec : α → Vec) (sel : List (α × ℚ)) (x : α × ℚ)
    (xs : List (α × ℚ)) :
    pickBestCore vec sel x xs = foldMax (mmrScore vec sel) x xs := by
  unfold pickBestCore
  simp only [List.foldl_cons]
  have h1 : pickStep vec sel ((none : Option ℚ), x) x
      = (some (mmrScore vec sel x), x) := rfl
  rw [h1]
  exact foldl_pickStep vec sel xs x

theorem dotQ_comm : ∀ (a b : Vec), dotQ a b = dotQ b a := by
  intro a
  induction a with
  | nil => intro b; cases b <;> rfl
  | cons u us ih =>
    intro b
    cases b with
    | nil => rfl
    | cons v vs =>
      unfold dotQ
      simp only [List.zipWith_cons_cons, List.sum_cons]
      rw [mul_comm]
      have h2 := ih vs
      unfold dotQ at h2
      rw [h2]

theorem mmrScore_eq_spec (vec : α → Vec) (sel : List (α × ℚ)) (c : α × ℚ) :
    mmrScore vec sel c = mmrSpecScore vec sel c := by
  unfold mmrScore mmrSpecScore simToSelected
  have h1 : (1 : ℚ) - 7/10 = 3/10 := by norm_num
  rw [h1]
  have h2 : ∀ (l : List (α × ℚ)),
      l.map (fun s => dotQ (vec s.1) (vec c.1))
        = l.map (fun s => dotQ (vec c.1) (vec s.1)) := by
    intro l
    induction l with
    | nil => rfl
    | cons s ss ih2 =>
      simp only [List.map_cons]
      rw [dotQ_comm, ih2]
  rw [h2]

theorem mmrGo_eq_spec [DecidableEq α] (vec : α → Vec) (k : ℕ) :
    ∀ (fuel : ℕ) (sel rem : List (α × ℚ)),
    mmrGo vec k fuel sel rem = mmrSpecGo vec k fuel sel rem := by
  intro fuel
  induction fuel with
  | zero => intro sel rem; rfl
  | succ n ih =>
    intro sel rem
    cases rem with
    | nil => rfl
    | cons r rs =>
      by_cases hk : k ≤ sel.length
      · simp only [mmrGo, mmrSpecGo, if_pos hk]
      · cases hsel : sel.isEmpty with
        | true =>
          simp only [mmrGo, mmrSpecGo, if_neg hk, hsel, if_true]
          rw [argmaxFirst_eq_foldMax]
          exact ih _ _
        | false =>
          simp only [mmrGo, mmrSpecGo, if_neg hk, hsel, Bool.false_eq_true, if_false]
          rw [argmaxFirst_eq_foldMax, pickBestCore_eq]
          have hfun : mmrScore vec sel = mmrSpecScore vec sel :=
            funext (mmrScore_eq_spec vec sel)
          rw [hfun]
          exact ih _ _

/-- C1: for every non-empty candidate list and every `k ≥ 1`, `_mmr_select`
behaves exactly as the claim describes: the first pick is the candidate with
the highest relevance score, each subsequent pick is the remaining candidate
maximizing `0.7 * rel(c) - 0.3 * max_{s ∈ selected} cos(vector c, vector s)`,
ties always broken in favour of the first-encountered candidate, repeating
until `k` candidates are selected or the candidates are exhausted. -/
theorem mmr_select_matches_spec [DecidableEq α] (vec : α → Vec)
    (candidates : List (α × ℚ)) (k : ℕ)
    (hc : candidates ≠ []) (hk : 1 ≤ k) :
    mmrSelect vec candidates k = mmrSpecSelect vec candidates k := by
  unfold mmrSelect mmrSpecSelect
  exact mmrGo_eq_spec vec k candidates.length [] candidates

/-- Witness for `mmr_select_matches_spec` on a concrete two-candidate pool. -/
theorem mmr_select_matches_spec_witness :
    (([((0 : ℕ), (1 : ℚ)), (1, 2)] : List (ℕ × ℚ)) ≠ [] ∧ 1 ≤ 2) ∧
    mmrSelect (fun i => [(i : ℚ)]) [((0 : ℕ), (1 : ℚ)), (1, 2)] 2
      = mmrSpecSelect (fun i => [(i : ℚ)]) [((0 : ℕ), (1 : ℚ)), (1, 2)] 2 :=
  ⟨⟨by decide, by decide⟩,
   mmr_select_matches_spec (fun i => [(i : ℚ)]) [((0 : ℕ), (1 : ℚ)), (1, 2)] 2
     (by decide) (by decide)⟩

/-! ## Lemmas: MMR output size and membership (claim C7) -/

theorem foldMax_mem (f : α → ℚ) (xs : List α) (x : α) : foldMax f x xs ∈ x :: xs := by
  obtain ⟨pre, post, hdec, _, _⟩ := foldMax_decomp f xs x
  rw [hdec]
  simp

theorem mmrBest_mem [DecidableEq α] (vec : α → Vec) (sel : List (α × ℚ))
    (r : α × ℚ) (rs : List (α × ℚ)) :
    (if sel.isEmpty then foldMax (fun c => c.2) r rs else pickBestCore vec sel r rs)
      ∈ r :: rs := by
  by_cases hb : sel.isEmpty
  · rw [if_pos hb]
    exact foldMax_mem _ rs r
  · rw [if_neg hb, pickBestCore_eq]
    exact foldMax_mem _ rs r

theorem mmrGo_subset [DecidableEq α] (vec : α → Vec) (k : ℕ) :
    ∀ (fuel : ℕ) (sel rem : List (α × ℚ)) (x : α × ℚ),
    x ∈ mmrGo vec k fuel sel rem → x ∈ sel ∨ x ∈ rem := by
  intro fuel
  induction fuel with
  | zero =>
    intro sel rem x hx
    exact Or.inl hx
  | succ n ih =>
    intro sel rem x hx
    cases rem with
    | nil => exact Or.inl hx
    | cons r rs =>
      by_cases hk : k ≤ sel.length
      · simp only [mmrGo, if_pos hk] at hx
        exact Or.inl hx
      · simp only [mmrGo, if_neg hk] at hx
        rcases ih _ _ _ hx with h | h
        · rcases List.mem_append.mp h with h2 | h2
          · exact Or.inl h2
          · have hx2 : x = (if sel.isEmpty then foldMax (fun c => c.2) r rs
                else pickBestCore vec sel r rs) := by simpa using h2
            rw [hx2]
            exact Or.inr (mmrBest_mem vec sel r rs)
        · exact Or.inr (List.erase_subset _ _ h)

theorem mmrGo_len [DecidableEq α] (vec : α → Vec) (k : ℕ) :
    ∀ (fuel : ℕ) (rem sel : List (α × ℚ)), rem.length ≤ fuel → sel.length ≤ k →
    (mmrGo vec k fuel sel rem).length = min k (sel.length + rem.length) := by
  intro fuel
  induction fuel with
  | zero =>
    intro rem sel hf hs
    have hr : rem = [] := List.length_eq_zero.mp (Nat.le_zero.mp hf)
    subst hr
    simp only [mmrGo, List.length_nil]
    omega
  | succ n ih =>
    intro rem sel hf hs
    cases rem with
    | nil =>
      simp only [mmrGo, List.length_nil]
      omega
    | cons r rs =>
      by_cases hk : k ≤ sel.length
      · simp only [mmrGo, if_pos hk, List.length_cons]
        omega
      · simp only [mmrGo, if_neg hk]
        have herase : ((r :: rs).erase (if sel.isEmpty then foldMax (fun c => c.2) r rs
            else pickBestCore vec sel r rs)).length = rs.length := by
          rw [List.length_erase_of_mem (mmrBest_mem vec sel r rs)]
          simp
        have h1 : ((r :: rs).erase (if sel.isEmpty then foldMax (fun c => c.2) r rs
            else pickBestCore vec sel r rs)).length ≤ n := by
          rw [herase]
          simp only [List.length_cons] at hf
          omega
        have h2 : (sel ++ [if sel.isEmpty then foldMax (fun c => c.2) r rs
            else pickBestCore vec sel r rs]).length ≤ k := by
          simp only [List.length_append, List.length_cons, List.length_nil]
          omega
        rw [ih _ _ h1 h2, herase]
        simp only [List.length_append, List.length_cons, List.length_nil]
        omega

theorem lookupMetas_ok (metadata : List MetaEntry) :
    ∀ (l : List (ℤ × ℚ)),
    (∀ p ∈ l, 0 ≤ p.1 ∧ p.1 < (metadata.length : ℤ)) →
    lookupMetas metadata l
      = .ok (l.map (fun p => metadata.getD p.1.toNat default)) := by
  intro l
  induction l with
  | nil => intro _; rfl
  | cons p ps ih =>
    intro h
    have hp := h p (List.mem_cons_self _ _)
    have hget : pyGetMeta metadata p.1 = .ok (metadata.getD p.1.toNat default) := by
      unfold pyGetMeta
      rw [if_pos hp]
    unfold lookupMetas
    rw [hget, ih (fun w hw => h w (List.mem_cons_of_mem _ hw))]
    rfl

theorem filter_nil_of_none (q : α → Bool) :
    ∀ (l : List α), (∀ a ∈ l, q a = false) → l.filter q = [] := by
  intro l
  induction l with
  | nil => intro _; rfl
  | cons a as ih =>
    intro h
    simp only [List.filter_cons, h a (List.mem_cons_self _ _), Bool.false_eq_true, if_false]
    exact ih (fun b hb => h b (List.mem_cons_of_mem _ hb))

theorem filter_self_of_all (q : α → Bool) :
    ∀ (l : List α), (∀ a ∈ l, q a = true) → l.filter q = l := by
  intro l
  induction l with
  | nil => intro _; rfl
  | cons a as ih =>
    intro h
    simp only [List.filter_cons, h a (List.mem_cons_self _ _), if_true]
    rw [ih (fun b hb => h b (List.mem_cons_of_mem _ hb))]

/-- C7: with a non-empty ledger, when every row the vector search returned
scores strictly below the 0.30 threshold, `retrieve` falls back to the raw
unfiltered top-`topK` rows: it returns the MMR selection over
`searchRes.take topK`, of size `min topK |searchRes|` — in particular a
non-empty result, not an empty list. -/
theorem retrieve_threshold_fallback (metadata : List MetaEntry) (vec : ℤ → Vec)
    (q : Vec) (searchRes : List (ℤ × ℚ)) (topK : ℕ)
    (hm : metadata ≠ [])
    (hvalid : ∀ p ∈ searchRes, 0 ≤ p.1 ∧ p.1 < (metadata.length : ℤ))
    (hlow : ∀ p ∈ searchRes, p.2 < 3/10)
    (hne : searchRes ≠ []) (hk : 1 ≤ topK) :
    retrieveModel metadata vec (.ok q) searchRes topK =
      ⟨(mmrSelect vec (searchRes.take topK) topK).map
          (fun p => (metadata.getD p.1.toNat default).text),
       (mmrSelect vec (searchRes.take topK) topK).map
          (fun p => sourceLabel (metadata.getD p.1.toNat default)),
       (mmrSelect vec (searchRes.take topK) topK).map (fun p => pyRound4 p.2)⟩ ∧
    (retrieveModel metadata vec (.ok q) searchRes topK).chunks.length
        = min topK searchRes.length ∧
    (retrieveModel metadata vec (.ok q) searchRes topK).chunks ≠ [] := by
  have hni : metadata.isEmpty = false := by
    cases metadata with
    | nil => exact absurd rfl hm
    | cons a l => rfl
  have hlen0 : 0 < searchRes.length := List.length_pos.mpr hne
  have h0 : searchRes.filter
      (fun p => decide (p.1 < (metadata.length : ℤ)) && decide ((3 : ℚ)/10 ≤ p.2))
        = [] := by
    apply filter_nil_of_none
    intro p hp
    have h2 : (decide ((3 : ℚ)/10 ≤ p.2) : Bool) = false := by
      simp [not_le.mpr (hlow p hp)]
    simp [h2]
  have hfb : (searchRes.take topK).filter
      (fun p => decide (p.1 < (metadata.length : ℤ))) = searchRes.take topK := by
    apply filter_self_of_all
    intro p hp
    exact decide_eq_true (hvalid p (List.take_subset _ _ hp)).2
  have hsub : ∀ p ∈ mmrSelect vec (searchRes.take topK) topK,
      0 ≤ p.1 ∧ p.1 < (metadata.length : ℤ) := by
    intro p hp
    rcases mmrGo_subset vec topK (searchRes.take topK).length []
        (searchRes.take topK) p hp with h | h
    · simp at h
    · exact hvalid p (List.take_subset _ _ h)
  have hlookup := lookupMetas_ok metadata (mmrSelect vec (searchRes.take topK) topK) hsub
  have hbody : retrieveBody metadata vec (.ok q) searchRes topK = .ok
      ⟨(mmrSelect vec (searchRes.take topK) topK).map
          (fun p => (metadata.getD p.1.toNat default).text),
       (mmrSelect vec (searchRes.take topK) topK).map
          (fun p => sourceLabel (metadata.getD p.1.toNat default)),
       (mmrSelect vec (searchRes.take topK) topK).map (fun p => pyRound4 p.2)⟩ := by
    simp only [retrieveBody, hni, Bool.false_eq_true, if_false, h0, hfb,
      List.isEmpty_nil, if_true, hlookup]
    simp [List.map_map, Function.comp]
  have hmodel : retrieveModel metadata vec (.ok q) searchRes topK =
      ⟨(mmrSelect vec (searchRes.take topK) topK).map
          (fun p => (metadata.getD p.1.toNat default).text),
       (mmrSelect vec (searchRes.take topK) topK).map
          (fun p => sourceLabel (metadata.getD p.1.toNat default)),
       (mmrSelect vec (searchRes.take topK) topK).map (fun p => pyRound4 p.2)⟩ := by
    simp [retrieveModel, hbody]
  have hcount : (retrieveModel metadata vec (.ok q) searchRes topK).chunks.length
      = min topK searchRes.length := by
    rw [hmodel]
    simp only [List.length_map]
    unfold mmrSelect
    rw [mmrGo_len vec topK (searchRes.take topK).length (searchRes.take topK) []
      (le_refl _) (by simp)]
    simp only [List.length_nil, List.length_take, Nat.zero_add]
    omega
  refine ⟨hmodel, hcount, ?_⟩
  intro hcon
  have h3 := congrArg List.length hcon
  simp only [List.length_nil] at h3
  rw [h3] at hcount
  omega

/-- Witness for `retrieve_threshold_fallback`: a one-record ledger and a
single search row scoring 0.1, below the 0.30 threshold, with `topK = 1`. -/
theorem retrieve_threshold_fallback_witness :
    (([⟨"d", "f", 0, ['t'], "c"⟩] : List MetaEntry) ≠ [] ∧
      (∀ p ∈ ([((0 : ℤ), (1 : ℚ)/10)] : List (ℤ × ℚ)),
        0 ≤ p.1 ∧ p.1 < (([⟨"d", "f", 0, ['t'], "c"⟩] : List MetaEntry).length : ℤ)) ∧
      (∀ p ∈ ([((0 : ℤ), (1 : ℚ)/10)] : List (ℤ × ℚ)), p.2 < 3/10) ∧
      ([((0 : ℤ), (1 : ℚ)/10)] : List (ℤ × ℚ)) ≠ [] ∧ (1 : ℕ) ≤ 1) ∧
    (retrieveModel [⟨"d", "f", 0, ['t'], "c"⟩] (fun (i : ℤ) => [(i : ℚ)])
        (.ok [(1 : ℚ)]) [((0 : ℤ), (1 : ℚ)/10)] 1 =
      ⟨(mmrSelect (fun (i : ℤ) => [(i : ℚ)])
            (([((0 : ℤ), (1 : ℚ)/10)] : List (ℤ × ℚ)).take 1) 1).map
          (fun p => (([⟨"d", "f", 0, ['t'], "c"⟩] : List MetaEntry).getD p.1.toNat default).text),
       (mmrSelect (fun (i : ℤ) => [(i : ℚ)])
            (([((0 : ℤ), (1 : ℚ)/10)] : List (ℤ × ℚ)).take 1) 1).map
          (fun p => sourceLabel (([⟨"d", "f", 0, ['t'], "c"⟩] : List MetaEntry).getD p.1.toNat default)),
       (mmrSelect (fun (i : ℤ) => [(i : ℚ)])
            (([((0 : ℤ), (1 : ℚ)/10)] : List (ℤ × ℚ)).take 1) 1).map
          (fun p => pyRound4 p.2)⟩ ∧
    (retrieveModel [⟨"d", "f", 0, ['t'], "c"⟩] (fun (i : ℤ) => [(i : ℚ)])
        (.ok [(1 : ℚ)]) [((0 : ℤ), (1 : ℚ)/10)] 1).chunks.length
        = min 1 ([((0 : ℤ), (1 : ℚ)/10)] : List (ℤ × ℚ)).length ∧
    (retrieveModel [⟨"d", "f", 0, ['t'], "c"⟩] (fun (i : ℤ) => [(i : ℚ)])
        (.ok [(1 : ℚ)]) [((0 : ℤ), (1 : ℚ)/10)] 1).chunks ≠ []) :=
  ⟨⟨by decide, by decide, by norm_num, by decide, by decide⟩,
   retrieve_threshold_fallback [⟨"d", "f", 0, ['t'], "c"⟩] (fun (i : ℤ) => [(i : ℚ)])
     [(1 : ℚ)] [((0 : ℤ), (1 : ℚ)/10)] 1
     (by decide) (by decide) (by norm_num) (by decide) (by decide)⟩

/-! ## Lemmas: joining and overlap seeding (claim C5) -/

theorem joinSp_append (p q : List PyStr) (hp : p ≠ []) :
    ∃ t, joinSp p ++ t = joinSp (p ++ q) := by
  induction p with
  | nil => exact absurd rfl hp
  | cons x xs ih =>
    cases xs with
    | nil =>
      cases q with
      | nil => exact ⟨[], by simp⟩
      | cons y ys => exact ⟨' ' :: joinSp (y :: ys), by simp [joinSp]⟩
    | cons b bs =>
      obtain ⟨t, ht⟩ := ih (by simp)
      refine ⟨t, ?_⟩
      have h1 : joinSp (x :: b :: bs) = x ++ ' ' :: joinSp (b :: bs) := rfl
      have h2 : joinSp ((x :: b :: bs) ++ q) = x ++ ' ' :: joinSp ((b :: bs) ++ q) := by
        cases q <;> rfl
      rw [h1, h2, ← ht]
      simp

theorem packLoop_head (size overlap : ℕ) :
    ∀ (sents parts : List PyStr) (curLen : ℕ), parts ≠ [] →
    ∃ c rest, packLoop size overlap parts curLen sents = c :: rest ∧
      ∃ t, joinSp parts ++ t = c := by
  intro sents
  induction sents with
  | nil =>
    intro parts curLen hp
    refine ⟨joinSp parts, [], ?_, [], by simp⟩
    simp [packLoop, List.isEmpty_iff, hp]
  | cons s ss ih =>
    intro parts curLen hp
    by_cases h1 : size < s.length
    · refine ⟨joinSp parts, hardSplit size overlap s ++ packLoop size overlap [] 0 ss,
        ?_, [], by simp⟩
      simp [packLoop, h1, List.isEmpty_iff, hp]
    · by_cases h2 : size < curLen + s.length + 1
      · refine ⟨joinSp parts, packLoop size overlap (buildOverlap overlap parts ++ [s])
          (sumLen (buildOverlap overlap parts) + s.length + 1) ss, ?_, [], by simp⟩
        have hne : ¬ parts.isEmpty := by simp [List.isEmpty_iff, hp]
        simp [packLoop, h1, h2, hne]
      · obtain ⟨c, rest, hrec, t, ht⟩ := ih (parts ++ [s]) (curLen + s.length + 1)
          (by simp)
        refine ⟨c, rest, ?_, ?_⟩
        · have hne : ¬ parts.isEmpty := by simp [List.isEmpty_iff, hp]
          simpa [packLoop, h1, h2] using hrec
        · obtain ⟨u, hu⟩ := joinSp_append parts [s] hp
          exact ⟨u ++ t, by rw [← List.append_assoc, hu, ht]⟩

theorem sumLen1_cons (s : PyStr) (l : List PyStr) :
    sumLen1 (s :: l) = s.length + 1 + sumLen1 l := by
  simp [sumLen1]

theorem sumLen1_reverse (l : List PyStr) : sumLen1 l.reverse = sumLen1 l := by
  unfold sumLen1
  rw [List.map_reverse, List.sum_reverse]

theorem overlapRev_pre (overlap : ℕ) :
    ∀ (l : List PyStr) (total : ℕ), ∃ rest, overlapRev overlap total l ++ rest = l := by
  intro l
  induction l with
  | nil => intro total; exact ⟨[], rfl⟩
  | cons s r ih =>
    intro total
    by_cases h : overlap < total + s.length + 1
    · exact ⟨s :: r, by simp [overlapRev, h]⟩
    · obtain ⟨rest, hr⟩ := ih (total + s.length + 1)
      exact ⟨rest, by simp [overlapRev, h, hr]⟩

theorem overlapRev_bound (overlap : ℕ) :
    ∀ (l : List PyStr) (total : ℕ), total ≤ overlap →
    total + sumLen1 (overlapRev overlap total l) ≤ overlap := by
  intro l
  induction l with
  | nil => intro total h; simpa [overlapRev, sumLen1] using h
  | cons s r ih =>
    intro total h
    by_cases hc : overlap < total + s.length + 1
    · simpa [overlapRev, hc, sumLen1] using h
    · have := ih (total + s.length + 1) (by omega)
      simp only [overlapRev, hc, if_false, if_neg hc, sumLen1_cons]
      omega

theorem overlapRev_max (overlap : ℕ) :
    ∀ (r l : List PyStr) (total : ℕ), (∃ rest, r ++ rest = l) →
    total + sumLen1 r ≤ overlap →
    ∃ rest2, r ++ rest2 = overlapRev overlap total l := by
  intro r
  induction r with
  | nil =>
    intro l total _ _
    exact ⟨overlapRev overlap total l, by simp⟩
  | cons s r2 ih =>
    intro l total hpre hbound
    obtain ⟨rest, hr⟩ := hpre
    cases l with
    | nil => simp at hr
    | cons a l2 =>
      have hsa : s = a := by
        have := hr
        simp only [List.cons_append] at this
        exact (List.cons.injEq _ _ _ _ ▸ this).1
      subst hsa
      have hl2 : r2 ++ rest = l2 := by
        simpa using hr
      rw [sumLen1_cons] at hbound
      have hc : ¬ overlap < total + s.length + 1 := by omega
      obtain ⟨rest2, hr2⟩ := ih l2 (total + s.length + 1) ⟨rest, hl2⟩ (by omega)
      exact ⟨rest2, by simp [overlapRev, hc, hr2]⟩

theorem buildOverlap_suffix (overlap : ℕ) (parts : List PyStr) :
    ∃ t, t ++ buildOverlap overlap parts = parts := by
  obtain ⟨rest, hr⟩ := overlapRev_pre overlap parts.reverse 0
  refine ⟨rest.reverse, ?_⟩
  have := congrArg List.reverse hr
  simpa [buildOverlap] using this

theorem buildOverlap_bound (overlap : ℕ) (parts : List PyStr) :
    sumLen1 (buildOverlap overlap parts) ≤ overlap := by
  have := overlapRev_bound overlap parts.reverse 0 (Nat.zero_le _)
  simpa [buildOverlap, sumLen1_reverse] using this

theorem buildOverlap_max (overlap : ℕ) (parts : List PyStr) (r : List PyStr)
    (hsuf : ∃ t, t ++ r = parts) (hb : sumLen1 r ≤ overlap) :
    ∃ t2, t2 ++ r = buildOverlap overlap parts := by
  obtain ⟨t, ht⟩ := hsuf
  have hpre : ∃ rest, r.reverse ++ rest = parts.reverse := by
    refine ⟨t.reverse, ?_⟩
    have := congrArg List.reverse ht
    simpa using this
  obtain ⟨rest2, hr2⟩ := overlapRev_max overlap r.reverse parts.reverse 0 hpre
    (by simpa [sumLen1_reverse] using hb)
  refine ⟨rest2.reverse, ?_⟩
  have := congrArg List.reverse hr2
  simpa [buildOverlap] using this

/-- C5 fails on the source: with `chunk_size = 4`, `chunk_overlap = 2`,
sentences "ab" then "cd", the chunk "ab" is closed because "cd" would overflow
it.  The claim's seed — the maximal trailing run of whole sentences with plain
cumulative character count `≤ chunkOverlap` — is `["ab"]` (2 ≤ 2), so the
claim predicts the next chunk begins with "ab cd"; the code's
`_build_overlap` counts `len("ab") + 1 = 3 > 2`, keeps no seed, and the next
chunk is just "cd". -/
theorem overlap_claim_cex :
    packLoop 4 2 [['a','b']] 3 [['c','d']] = [['a','b'], ['c','d']] ∧
    claimOverlap 2 [['a','b']] = [['a','b']] ∧
    sumLen (claimOverlap 2 [['a','b']]) ≤ 2 ∧
    joinSp (claimOverlap 2 [['a','b']] ++ [['c','d']]) = ['a','b',' ','c','d'] ∧
    (¬ ∃ t, joinSp (claimOverlap 2 [['a','b']] ++ [['c','d']]) ++ t = ['c','d']) ∧
    packSentences 4 2 [['a','b'], ['c','d']] = [['a','b'], ['c','d']] := by
  refine ⟨by decide, by decide, by decide, by decide, ?_, by decide⟩
  rintro ⟨t, ht⟩
  have hj : joinSp (claimOverlap 2 [['a','b']] ++ [['c','d']])
      = ['a','b',' ','c','d'] := by decide
  rw [hj] at ht
  have hlen := congrArg List.length ht
  simp at hlen

/-- C5 (amended): whenever the packing loop closes a chunk because the next
sentence `s` would overflow it (`curLen + len s + 1 > chunkSize`,
`len s ≤ chunkSize`, pending parts non-empty), the next emitted chunk begins
with exactly the seed sentences of `_build_overlap` followed by `s` — where
the seed is the maximal trailing run of whole sentences of the just-closed
chunk whose cumulative length **counted with one joining space per sentence**
(`Σ (len sᵢ + 1)`) stays at most `chunkOverlap`. -/
theorem overlap_carry_amended (size overlap : ℕ) (parts : List PyStr)
    (curLen : ℕ) (s : PyStr) (ss : List PyStr)
    (hs : s.length ≤ size) (hp : parts ≠ []) (hov : size < curLen + s.length + 1) :
    (∃ c rest, packLoop size overlap parts curLen (s :: ss)
        = joinSp parts :: c :: rest ∧
      ∃ t, joinSp (buildOverlap overlap parts ++ [s]) ++ t = c) ∧
    (∃ t, t ++ buildOverlap overlap parts = parts) ∧
    sumLen1 (buildOverlap overlap parts) ≤ overlap ∧
    (∀ r, (∃ t, t ++ r = parts) → sumLen1 r ≤ overlap →
      ∃ t2, t2 ++ r = buildOverlap overlap parts) := by
  refine ⟨?_, buildOverlap_suffix overlap parts, buildOverlap_bound overlap parts,
    fun r hsuf hb => buildOverlap_max overlap parts r hsuf hb⟩
  have h1 : ¬ size < s.length := by omega
  have hne : ¬ parts.isEmpty := by simp [List.isEmpty_iff, hp]
  obtain ⟨c, rest, hrec, t, ht⟩ := packLoop_head size overlap ss
    (buildOverlap overlap parts ++ [s])
    (sumLen (buildOverlap overlap parts) + s.length + 1) (by simp)
  refine ⟨c, rest, ?_, t, ht⟩
  simp [packLoop, h1, hov, hne, hrec]

/-- Witness for `overlap_carry_amended` at the C4 trace: `chunk_size = 10`,
`chunk_overlap = 8`, closed parts "ab","cd","efg" and overflowing sentence
"hijk". -/
theorem overlap_carry_amended_witness :
    ((['h','i','j','k'] : PyStr).length ≤ 10 ∧
      ([['a','b'], ['c','d'], ['e','f','g']] : List PyStr) ≠ [] ∧
      10 < 10 + (['h','i','j','k'] : PyStr).length + 1) ∧
    ((∃ c rest, packLoop 10 8 [['a','b'], ['c','d'], ['e','f','g']] 10 [['h','i','j','k']]
        = joinSp [['a','b'], ['c','d'], ['e','f','g']] :: c :: rest ∧
      ∃ t, joinSp (buildOverlap 8 [['a','b'], ['c','d'], ['e','f','g']] ++ [['h','i','j','k']]) ++ t = c) ∧
    (∃ t, t ++ buildOverlap 8 [['a','b'], ['c','d'], ['e','f','g']]
        = [['a','b'], ['c','d'], ['e','f','g']]) ∧
    sumLen1 (buildOverlap 8 [['a','b'], ['c','d'], ['e','f','g']]) ≤ 8 ∧
    (∀ r, (∃ t, t ++ r = [['a','b'], ['c','d'], ['e','f','g']]) → sumLen1 r ≤ 8 →
      ∃ t2, t2 ++ r = buildOverlap 8 [['a','b'], ['c','d'], ['e','f','g']])) :=
  ⟨⟨by decide, by decide, by decide⟩,
   overlap_carry_amended 10 8 [['a','b'], ['c','d'], ['e','f','g']] 10
     ['h','i','j','k'] [] (by decide) (by decide) (by decide)⟩

/-! ## Lemmas: lengths under lifecycle operations (claim C2) -/

theorem applyOp_len (embed : PyStr → Vec) (op : KBOp) (st : KBState)
    (h : st.index.length = st.metadata.length) :
    (applyOp embed op st).index.length = (applyOp embed op st).metadata.length := by
  cases op with
  | ingest d f c chunks =>
    simp [applyOp, ingestKB, h, List.enum_length]
  | delete d =>
    unfold applyOp deleteKB
    by_cases hc : (keepIndices d st.metadata).length = st.metadata.length
    · simp [hc, h]
    · simp [hc]
  | clear => rfl

/-- C2: after any finite sequence of ingest, delete and clear operations
starting from the empty knowledge base, the number of vectors in the vector
store equals the number of records in the metadata ledger. -/
theorem kb_length_invariant (embed : PyStr → Vec) (ops : List KBOp) :
    (applyOps embed ops emptyKB).index.length
      = (applyOps embed ops emptyKB).metadata.length := by
  have main : ∀ (l : List KBOp) (st : KBState),
      st.index.length = st.metadata.length →
      (applyOps embed l st).index.length = (applyOps embed l st).metadata.length := by
    intro l
    induction l with
    | nil => intro st h; exact h
    | cons op rest ih =>
      intro st h
      exact ih (applyOp embed op st) (applyOp_len embed op st h)
  exact main ops emptyKB rfl

/-! ## Lemmas: enumerate-filter-rebuild (claim C3) -/

theorem getD_append_len (pre : List α) (x : α) (xs : List α) (d : α) :
    (pre ++ x :: xs).getD pre.length d = x := by
  induction pre with
  | nil => rfl
  | cons a p ih => simpa using ih

theorem enumFrom_all (Q : α → Prop) :
    ∀ (l : List α) (n : ℕ), (∀ p ∈ l.enumFrom n, Q p.2) ↔ (∀ m ∈ l, Q m) := by
  intro l
  induction l with
  | nil => intro n; simp [List.enumFrom]
  | cons x xs ih =>
    intro n
    have h1 : (x :: xs).enumFrom n = (n, x) :: xs.enumFrom (n + 1) := rfl
    rw [h1]
    constructor
    · intro hall m hm
      rcases List.mem_cons.mp hm with h | h
      · rw [h]
        exact hall (n, x) (List.mem_cons_self _ _)
      · exact (ih (n + 1)).mp (fun p hp => hall p (List.mem_cons_of_mem _ hp)) m h
    · intro hall p hp
      rcases List.mem_cons.mp hp with h | h
      · rw [h]
        exact hall x (List.mem_cons_self _ _)
      · exact (ih (n + 1)).mpr (fun m hm => hall m (List.mem_cons_of_mem _ hm)) p h

theorem filter_len_eq (q : α → Bool) :
    ∀ (l : List α), ((l.filter q).length = l.length) ↔ ∀ a ∈ l, q a := by
  intro l
  induction l with
  | nil => simp
  | cons a l2 ih =>
    cases hq : q a with
    | true => simp [List.filter_cons, hq, ih]
    | false =>
      simp only [List.filter_cons, hq, Bool.false_eq_true, if_false, List.forall_mem_cons]
      constructor
      · intro hlen
        exfalso
        have hle := List.length_filter_le q l2
        simp only [List.length_cons] at hlen
        omega
      · intro hall
        exact hall.1.elim

theorem keepIndices_len_iff (docId : String) (metadata : List MetaEntry) :
    ((keepIndices docId metadata).length = metadata.length) ↔
      ∀ m ∈ metadata, m.docId ≠ docId := by
  have hiff : (∀ p ∈ List.enumFrom 0 metadata,
        (fun (x : MetaEntry) => (decide (x.docId ≠ docId) : Bool) = true) p.2) ↔
      ∀ m ∈ metadata, (decide (m.docId ≠ docId) : Bool) = true :=
    enumFrom_all (fun (x : MetaEntry) => (decide (x.docId ≠ docId) : Bool) = true)
      metadata 0
  unfold keepIndices
  rw [List.length_map]
  constructor
  · intro h m hm
    have h2 : ∀ p ∈ metadata.enum, (decide (p.2.docId ≠ docId) : Bool) = true := by
      apply (filter_len_eq _ _).mp
      rw [h, List.enum_length]
    have h3 := hiff.mp h2 m hm
    simpa using h3
  · intro h
    have h2 : ∀ p ∈ metadata.enum,
        (fun (p : ℕ × MetaEntry) => decide (p.2.docId ≠ docId)) p = true := by
      apply hiff.mpr
      intro m hm
      simpa using h m hm
    rw [(filter_len_eq _ _).mpr h2, List.enum_length]

theorem keep_map_getD (docId : String) (d : MetaEntry) :
    ∀ (l pre : List MetaEntry),
    (((l.enumFrom pre.length).filter (fun p => decide (p.2.docId ≠ docId))).map Prod.fst).map
        (fun i => (pre ++ l).getD i d)
      = l.filter (fun m => decide (m.docId ≠ docId)) := by
  intro l
  induction l with
  | nil => intro pre; simp [List.enumFrom]
  | cons m ms ih =>
    intro pre
    have h1 : (m :: ms).enumFrom pre.length
        = (pre.length, m) :: ms.enumFrom (pre.length + 1) := rfl
    have e1 : (pre ++ [m]).length = pre.length + 1 := by simp
    have e2 : (pre ++ [m]) ++ ms = pre ++ m :: ms := by simp
    have ihm := ih (pre ++ [m])
    rw [e1, e2] at ihm
    rw [h1]
    by_cases h : m.docId ≠ docId
    · simp only [List.filter_cons, decide_eq_true_eq, if_pos h, List.map_cons,
        getD_append_len, ihm]
    · simp only [List.filter_cons, decide_eq_true_eq, if_neg h, ihm]

theorem keep_map_zip (docId : String) :
    ∀ (ml : List MetaEntry) (vl : List Vec) (pre : List MetaEntry) (prev : List Vec),
    prev.length = pre.length → vl.length = ml.length →
    ((((ml.enumFrom pre.length).filter (fun p => decide (p.2.docId ≠ docId))).map Prod.fst).map
        (fun i => (prev ++ vl).getD i []))
      = ((vl.zip ml).filter (fun p => decide (p.2.docId ≠ docId))).map Prod.fst := by
  intro ml
  induction ml with
  | nil =>
    intro vl pre prev hp hv
    have : vl = [] := List.length_eq_zero.mp (by simpa using hv)
    subst this
    simp [List.enumFrom]
  | cons m ms ih =>
    intro vl pre prev hp hv
    cases vl with
    | nil => simp at hv
    | cons v vs =>
      have h1 : (m :: ms).enumFrom pre.length
          = (pre.length, m) :: ms.enumFrom (pre.length + 1) := rfl
      have e1 : (pre ++ [m]).length = pre.length + 1 := by simp
      have e2 : (prev ++ [v]) ++ vs = prev ++ v :: vs := by simp
      have ihm := ih vs (pre ++ [m]) (prev ++ [v]) (by simp [hp]) (by simpa using hv)
      rw [e1, e2] at ihm
      rw [h1]
      have hgd : (prev ++ v :: vs).getD pre.length [] = v := by
        rw [← hp]
        exact getD_append_len prev v vs []
      by_cases h : m.docId ≠ docId
      · simp only [List.zip_cons_cons, List.filter_cons, decide_eq_true_eq, if_pos h,
          List.map_cons, hgd, ihm]
      · simp only [List.zip_cons_cons, List.filter_cons, decide_eq_true_eq, if_neg h, ihm]

theorem zip_filter_snd (q : MetaEntry → Bool) :
    ∀ (vl : List Vec) (ml : List MetaEntry), vl.length = ml.length →
    ((vl.zip ml).filter (fun p => q p.2)).map Prod.snd = ml.filter q := by
  intro vl
  induction vl with
  | nil =>
    intro ml h
    have : ml = [] := List.length_eq_zero.mp (by simpa using h.symm)
    subst this
    rfl
  | cons v vs ih =>
    intro ml h
    cases ml with
    | nil => simp at h
    | cons m ms =>
      have ihm := ih ms (by simpa using h)
      by_cases hq : q m
      · simp [List.zip_cons_cons, List.filter_cons, hq, ihm]
      · simp [List.zip_cons_cons, List.filter_cons, hq, ihm]

theorem zip_fst_snd : ∀ (l : List (α × β)), (l.map Prod.fst).zip (l.map Prod.snd) = l := by
  intro l
  induction l with
  | nil => rfl
  | cons p ps ih => simp [ih]

/-- C3: `delete_document(doc_id)` raises `NotFound` exactly when no ledger
record carries `doc_id`; on success it keeps exactly the `(vector, metadata)`
pairs whose record's `doc_id` differs, in their original relative order, each
surviving position still pairing the same vector with the same record
(assuming the store and ledger were aligned, invariant I1/I2). -/
theorem delete_document_spec (docId : String) (st : KBState)
    (h : st.index.length = st.metadata.length) :
    (deleteKB docId st = .error .notFound ↔ ∀ m ∈ st.metadata, m.docId ≠ docId) ∧
    (∀ st2, deleteKB docId st = .ok st2 →
      st2.metadata = st.metadata.filter (fun m => decide (m.docId ≠ docId)) ∧
      st2.index.zip st2.metadata
        = (st.index.zip st.metadata).filter (fun p => decide (p.2.docId ≠ docId))) := by
  constructor
  · constructor
    · intro he
      unfold deleteKB at he
      by_cases hc : (keepIndices docId st.metadata).length = st.metadata.length
      · exact (keepIndices_len_iff docId st.metadata).mp hc
      · simp [hc] at he
    · intro hall
      unfold deleteKB
      simp [(keepIndices_len_iff docId st.metadata).mpr hall]
  · intro st2 hok
    unfold deleteKB at hok
    by_cases hc : (keepIndices docId st.metadata).length = st.metadata.length
    · simp [hc] at hok
    · simp only [if_neg hc, Except.ok.injEq] at hok
      have hmeta : st2.metadata
          = st.metadata.filter (fun m => decide (m.docId ≠ docId)) := by
        rw [← hok]
        have := keep_map_getD docId default st.metadata []
        simpa [keepIndices] using this
      have hidx : st2.index
          = ((st.index.zip st.metadata).filter
              (fun p => decide (p.2.docId ≠ docId))).map Prod.fst := by
        rw [← hok]
        have := keep_map_zip docId st.metadata st.index [] [] rfl h
        simpa [keepIndices, getVector] using this
      refine ⟨hmeta, ?_⟩
      rw [hidx, hmeta, ← zip_filter_snd (fun m => decide (m.docId ≠ docId)) st.index st.metadata h]
      exact zip_fst_snd _

/-- Witness for `delete_document_spec`: a two-entry aligned store, deleting
the document of the first entry. -/
theorem delete_document_spec_witness :
    ((⟨[[(1 : ℚ)], [(2 : ℚ)]],
        [⟨"a", "f1", 0, ['x'], "t"⟩, ⟨"b", "f2", 0, ['y'], "t"⟩]⟩ : KBState).index.length
      = (⟨[[(1 : ℚ)], [(2 : ℚ)]],
        [⟨"a", "f1", 0, ['x'], "t"⟩, ⟨"b", "f2", 0, ['y'], "t"⟩]⟩ : KBState).metadata.length) ∧
    ((deleteKB "a" ⟨[[(1 : ℚ)], [(2 : ℚ)]],
        [⟨"a", "f1", 0, ['x'], "t"⟩, ⟨"b", "f2", 0, ['y'], "t"⟩]⟩ = .error .notFound ↔
      ∀ m ∈ (⟨[[(1 : ℚ)], [(2 : ℚ)]],
        [⟨"a", "f1", 0, ['x'], "t"⟩, ⟨"b", "f2", 0, ['y'], "t"⟩]⟩ : KBState).metadata,
        m.docId ≠ "a") ∧
    (∀ st2, deleteKB "a" ⟨[[(1 : ℚ)], [(2 : ℚ)]],
        [⟨"a", "f1", 0, ['x'], "t"⟩, ⟨"b", "f2", 0, ['y'], "t"⟩]⟩ = .ok st2 →
      st2.metadata = (⟨[[(1 : ℚ)], [(2 : ℚ)]],
        [⟨"a", "f1", 0, ['x'], "t"⟩, ⟨"b", "f2", 0, ['y'], "t"⟩]⟩ : KBState).metadata.filter
          (fun m => decide (m.docId ≠ "a")) ∧
      st2.index.zip st2.metadata
        = ((⟨[[(1 : ℚ)], [(2 : ℚ)]],
            [⟨"a", "f1", 0, ['x'], "t"⟩, ⟨"b", "f2", 0, ['y'], "t"⟩]⟩ : KBState).index.zip
            (⟨[[(1 : ℚ)], [(2 : ℚ)]],
            [⟨"a", "f1", 0, ['x'], "t"⟩, ⟨"b", "f2", 0, ['y'], "t"⟩]⟩ : KBState).metadata).filter
              (fun p => decide (p.2.docId ≠ "a")))) :=
  ⟨rfl, delete_document_spec "a" _ rfl⟩

/-! ## Claim C4: the packed-chunk length bound fails on the source -/

/-- C4 (code bug): with `chunk_size = 10`, `chunk_overlap = 8` and the four
sentences "ab", "cd", "efg", "hijk" — none longer than `chunk_size`, so no
hard-splitting — the packing path emits the chunk "cd efg hijk" of length 11,
exceeding `chunk_size`.  The cause is `knowledge_base.py:88`, which recomputes
`current_len` as `sum(len(s))` over the overlap seeds, omitting the `+1` per
joining space used everywhere else. -/
theorem pack_overflow_eval :
    packSentences 10 8 [['a','b'], ['c','d'], ['e','f','g'], ['h','i','j','k']] =
      [['a','b',' ','c','d',' ','e','f','g'],
       ['c','d',' ','e','f','g',' ','h','i','j','k']] ∧
    (['c','d',' ','e','f','g',' ','h','i','j','k'] : PyStr).length = 11 ∧
    8 < 10 ∧ ¬ (['c','d',' ','e','f','g',' ','h','i','j','k'] : PyStr).length ≤ 10 := by
  refine ⟨by decide, by decide, by decide, by decide⟩

/-! ## Claim C6: hard-split fragment lengths -/

/-- With overlap, several trailing windows are short, not only the last one:
`hardSplit 6 4` on a 10-character sentence yields fragment lengths
`[6, 6, 6, 4, 2]`, so fragment 3 (not the last — fragment 4 is) has length 4,
refuting "every fragment has length exactly chunkSize except possibly the
last" at `chunkSize = 6 > chunkOverlap = 4`, sentence length `10 > 6`. -/
theorem hard_split_claim_cex :
    4 < 6 ∧ 6 < (['a','b','c','d','e','f','g','h','i','j'] : PyStr).length ∧
    (hardSplit 6 4 ['a','b','c','d','e','f','g','h','i','j']).length = 5 ∧
    ((hardSplit 6 4 ['a','b','c','d','e','f','g','h','i','j']).getD 3 []).length = 4 ∧
    ((hardSplit 6 4 ['a','b','c','d','e','f','g','h','i','j']).getD 3 []).length ≠ 6 ∧
    (3 : ℕ) ≠ 5 - 1 := by decide

theorem getD_map_range (f : ℕ → α) (n k : ℕ) (d : α) (h : k < n) :
    ((List.range n).map f).getD k d = f k := by
  simp [List.getD, List.getElem?_map, List.getElem?_range, h]

/-- C6 (amended): for `chunkOverlap < chunkSize` and a sentence longer than
`chunkSize`, hard-splitting produces `⌈len / step⌉` windows with
`step = chunkSize - chunkOverlap`; window `k` starts at `k * step` and has
length `min chunkSize (len - k * step)`; in particular every window that ends
at or before the end of the sentence has length exactly `chunkSize` (the
windows reaching past the end — possibly several when `chunkOverlap > 0` —
are shorter). -/
theorem hard_split_amended (size overlap : ℕ) (t : PyStr)
    (ho : overlap < size) (hl : size < t.length) :
    (hardSplit size overlap t).length
        = (t.length + (size - overlap) - 1) / (size - overlap) ∧
    (∀ k, k < (hardSplit size overlap t).length →
      (hardSplit size overlap t).getD k []
          = (t.drop (k * (size - overlap))).take size ∧
      ((hardSplit size overlap t).getD k []).length
          = min size (t.length - k * (size - overlap))) ∧
    (∀ k, k < (hardSplit size overlap t).length →
      k * (size - overlap) + size ≤ t.length →
      ((hardSplit size overlap t).getD k []).length = size) := by
  have hlen : (hardSplit size overlap t).length
      = (t.length + (size - overlap) - 1) / (size - overlap) := by
    simp [hardSplit]
  have hget : ∀ k, k < (hardSplit size overlap t).length →
      (hardSplit size overlap t).getD k []
        = (t.drop (k * (size - overlap))).take size := by
    intro k hk
    rw [hlen] at hk
    exact getD_map_range _ _ _ _ hk
  refine ⟨hlen, ?_, ?_⟩
  · intro k hk
    refine ⟨hget k hk, ?_⟩
    rw [hget k hk]
    simp [List.length_take, List.length_drop]
  · intro k hk hfit
    rw [hget k hk]
    simp only [List.length_take, List.length_drop]
    omega

/-- Witness for `hard_split_amended` at `chunkSize = 6`, `chunkOverlap = 4`
and a concrete 10-character sentence. -/
theorem hard_split_amended_witness :
    ((4 : ℕ) < 6 ∧ 6 < (['a','b','c','d','e','f','g','h','i','j'] : PyStr).length) ∧
    ((hardSplit 6 4 ['a','b','c','d','e','f','g','h','i','j']).length
        = ((['a','b','c','d','e','f','g','h','i','j'] : PyStr).length + (6 - 4) - 1) / (6 - 4) ∧
    (∀ k, k < (hardSplit 6 4 ['a','b','c','d','e','f','g','h','i','j']).length →
      (hardSplit 6 4 ['a','b','c','d','e','f','g','h','i','j']).getD k []
          = ((['a','b','c','d','e','f','g','h','i','j'] : PyStr).drop (k * (6 - 4))).take 6 ∧
      ((hardSplit 6 4 ['a','b','c','d','e','f','g','h','i','j']).getD k []).length
          = min 6 ((['a','b','c','d','e','f','g','h','i','j'] : PyStr).length - k * (6 - 4))) ∧
    (∀ k, k < (hardSplit 6 4 ['a','b','c','d','e','f','g','h','i','j']).length →
      k * (6 - 4) + 6 ≤ (['a','b','c','d','e','f','g','h','i','j'] : PyStr).length →
      ((hardSplit 6 4 ['a','b','c','d','e','f','g','h','i','j']).getD k []).length = 6)) :=
  ⟨⟨by decide, by decide⟩,
   hard_split_amended 6 4 ['a','b','c','d','e','f','g','h','i','j'] (by decide) (by decide)⟩

/-! ## Claims C8 and C10: retrieval error handling -/

/-- C8: with an empty metadata ledger, `retrieve` returns empty chunks,
sources and scores, and its body completes without raising. -/
theorem retrieve_empty_kb (vec : ℤ → Vec) (embedQ : Except PyErr Vec)
    (searchRes : List (ℤ × ℚ)) (topK : ℕ) :
    retrieveModel [] vec embedQ searchRes topK = emptyOut ∧
    retrieveBody [] vec embedQ searchRes topK = Except.ok emptyOut := by
  constructor <;> rfl

/-- C10: `retrieve` never lets an exception escape — every run either returns
the successful body result or, when the body raises anywhere (in particular on
an embedding-provider error), the catch-all clause returns the empty result. -/
theorem retrieve_never_raises (metadata : List MetaEntry) (vec : ℤ → Vec)
    (searchRes : List (ℤ × ℚ)) (topK : ℕ) :
    (∀ e, retrieveModel metadata vec (Except.error e) searchRes topK = emptyOut) ∧
    (∀ embedQ : Except PyErr Vec,
      (∃ r, retrieveBody metadata vec embedQ searchRes topK = Except.ok r ∧
        retrieveModel metadata vec embedQ searchRes topK = r) ∨
      (∃ e, retrieveBody metadata vec embedQ searchRes topK = Except.error e ∧
        retrieveModel metadata vec embedQ searchRes topK = emptyOut)) := by
  constructor
  · intro e
    unfold retrieveModel retrieveBody
    by_cases hm : metadata.isEmpty <;> simp [hm, emptyOut]
  · intro embedQ
    cases hb : retrieveBody metadata vec embedQ searchRes topK with
    | ok r => exact Or.inl ⟨r, rfl, by simp [retrieveModel, hb]⟩
    | error e => exact Or.inr ⟨e, rfl, by simp [retrieveModel, hb]⟩

/-! ## Claim C9: behaviour of `_load_index` on failures and mismatches -/

/-- C9 fails on the source: when the index file loads one vector but the
metadata file is unreadable (a load failure), the service starts with a
non-empty vector store; and when both files load but their lengths mismatch
(1 vector vs 0 records), the mismatched state is kept — no reset to an empty
knowledge base happens in either case. -/
theorem load_claim_cex :
    (loadIndex (.good [[(1 : ℚ)]]) .corrupt).index ≠ [] ∧
    loadIndex (.good [[(1 : ℚ)]]) (.good []) = ⟨[[(1 : ℚ)]], []⟩ ∧
    (loadIndex (.good [[(1 : ℚ)]]) (.good [])).index.length
      ≠ (loadIndex (.good [[(1 : ℚ)]]) (.good [])).metadata.length := by
  refine ⟨by decide, rfl, by decide⟩

/-- C9 (amended): `_load_index` never propagates a load error (startup always
yields a state).  If reading the index file fails, the whole knowledge base is
left empty; if reading the metadata file fails, only the metadata ledger is
left empty while the vector store keeps whatever the index file provided; a
length mismatch between the two loaded files is not detected. -/
theorem load_failure_amended (metaF : LoadFile (List MetaEntry)) (v : List Vec)
    (m : List MetaEntry) :
    loadIndex .corrupt metaF = ⟨[], []⟩ ∧
    loadIndex (.good v) .corrupt = ⟨v, []⟩ ∧
    loadIndex .missing .corrupt = ⟨[], []⟩ ∧
    loadIndex .missing .missing = ⟨[], []⟩ ∧
    loadIndex .missing (.good m) = ⟨[], m⟩ ∧
    loadIndex (.good v) (.good m) = ⟨v, m⟩ := by
  refine ⟨?_, rfl, rfl, rfl, rfl, rfl⟩
  cases metaF <;> rfl
